import Mathlib

/-!
Shallow embedding of the equity-cli poker evaluator (src/card.rs,
src/poker_hand.rs, src/poker_utils.rs, src/main.rs) together with proofs
about its hand classification, combination enumeration, winner resolution
and equity accumulation.

Rust machine integers are embedded as `Nat` (all quantities involved are
small and non-negative, so no wrap-around can occur); `f32` accumulation in
the simulator is embedded by exact rationals; randomness (the deck shuffle,
an external primitive) is abstracted as an oracle argument giving the
shuffled deck of each trial; Rust panics (`unwrap`, `unreachable!`) are
embedded as `Option.none`.
-/

namespace EquityCli

/-- Embeds `enum Rank` of src/card.rs: standard 2..A card rankings with
discriminants 2..14. -/
inductive Rank : Type where
  | Two | Three | Four | Five | Six | Seven | Eight | Nine | Ten
  | Jack | Queen | King | Ace
deriving DecidableEq, Repr

/-- Embeds `Rank::value`: the numeric value of a rank, which is also its
Rust discriminant. -/
def Rank.value : Rank → Nat
  | .Two => 2
  | .Three => 3
  | .Four => 4
  | .Five => 5
  | .Six => 6
  | .Seven => 7
  | .Eight => 8
  | .Nine => 9
  | .Ten => 10
  | .Jack => 11
  | .Queen => 12
  | .King => 13
  | .Ace => 14

/-- Embeds `Rank::next`: cyclic successor used for straight detection
(Ace wraps to Two). -/
def Rank.next : Rank → Rank
  | .Two => .Three
  | .Three => .Four
  | .Four => .Five
  | .Five => .Six
  | .Six => .Seven
  | .Seven => .Eight
  | .Eight => .Nine
  | .Nine => .Ten
  | .Ten => .Jack
  | .Jack => .Queen
  | .Queen => .King
  | .King => .Ace
  | .Ace => .Two

/-- Embeds the comparison of Rust unsigned integers
(`Ord::cmp` / the always-`Some` `PartialOrd::partial_cmp` on `u8`/`u32`/`i32`
restricted to the non-negative values occurring here). -/
def natCmp (a b : Nat) : Ordering :=
  if a < b then .lt else if a > b then .gt else .eq

/-- Embeds `impl PartialEq for Rank` of src/card.rs: equality of the
numeric values. -/
def Rank.req (a b : Rank) : Bool :=
  a.value == b.value

/-- Embeds the derived `Ord` on `Rank` (src/card.rs derives `Ord`): the
derive compares discriminants, and the discriminants are the numeric
values 2..14. -/
def Rank.cmp (a b : Rank) : Ordering :=
  natCmp a.value b.value

/-- Embeds `enum Suit` of src/card.rs. -/
inductive Suit : Type where
  | Spades | Hearts | Clubs | Diamonds
deriving DecidableEq, Repr

/-- Embeds `struct Card` of src/card.rs; the derived `PartialEq`/`Eq`
compare both fields, matching structural equality. -/
structure Card : Type where
  rank : Rank
  suit : Suit
deriving DecidableEq, Repr

instance : Inhabited Card := ⟨⟨Rank.Two, Suit.Spades⟩⟩

/-- Embeds `enum PokerHandRank` of src/poker_hand.rs. -/
inductive PokerHandRank : Type where
  | HighCard (a b c d e : Rank)
  | Pair (a b c d : Rank)
  | TwoPair (a b c : Rank)
  | ThreeOfAKind (a b c : Rank)
  | Straight (a : Rank)
  | Flush (a b c d e : Rank)
  | FullHouse (a b : Rank)
  | FourOfAKind (a b : Rank)
  | StraightFlush (a : Rank)
deriving DecidableEq, Repr

instance : Inhabited PokerHandRank :=
  ⟨.HighCard .Two .Two .Two .Two .Two⟩

/-- Embeds `impl PartialEq for PokerHandRank` of src/poker_hand.rs:
same variant with field-by-field rank equality, cross-variant pairs are
never equal. -/
def PokerHandRank.req : PokerHandRank → PokerHandRank → Bool
  | .HighCard a1 b1 c1 d1 e1, .HighCard a2 b2 c2 d2 e2 =>
      a1.req a2 && b1.req b2 && c1.req c2 && d1.req d2 && e1.req e2
  | .Pair a1 b1 c1 d1, .Pair a2 b2 c2 d2 =>
      a1.req a2 && b1.req b2 && c1.req c2 && d1.req d2
  | .TwoPair a1 b1 c1, .TwoPair a2 b2 c2 => a1.req a2 && b1.req b2 && c1.req c2
  | .ThreeOfAKind a1 b1 c1, .ThreeOfAKind a2 b2 c2 =>
      a1.req a2 && b1.req b2 && c1.req c2
  | .Straight a1, .Straight a2 => a1.req a2
  | .Flush a1 b1 c1 d1 e1, .Flush a2 b2 c2 d2 e2 =>
      a1.req a2 && b1.req b2 && c1.req c2 && d1.req d2 && e1.req e2
  | .FullHouse a1 b1, .FullHouse a2 b2 => a1.req a2 && b1.req b2
  | .FourOfAKind a1 b1, .FourOfAKind a2 b2 => a1.req a2 && b1.req b2
  | .StraightFlush a1, .StraightFlush b2 => a1.req b2
  | _, _ => false

/-- Embeds the local `rank_to_value` inside `partial_cmp`
(src/poker_hand.rs lines 70-82): category strength 1..9. -/
def rank_to_value : PokerHandRank → Nat
  | .HighCard .. => 1
  | .Pair .. => 2
  | .TwoPair .. => 3
  | .ThreeOfAKind .. => 4
  | .Straight .. => 5
  | .Flush .. => 6
  | .FullHouse .. => 7
  | .FourOfAKind .. => 8
  | .StraightFlush .. => 9

/-- Embeds the loop of `compare_ranks` (src/poker_hand.rs lines 242-259):
the running sum starts at 0, the multiplier starts at `15 * 5` and is
integer-divided by 15 after each slot. -/
def compare_ranks_sum : List Rank → Nat → Nat → Nat
  | [], sum, _ => sum
  | r :: rest, sum, mult => compare_ranks_sum rest (sum + r.value * mult) (mult / 15)

/-- Embeds `compare_ranks` of src/poker_hand.rs: weighted positional sums
compared numerically (`i32::partial_cmp` is always `Some`). -/
def compare_ranks (n_list m_list : List Rank) : Option Ordering :=
  some (natCmp (compare_ranks_sum n_list 0 (15 * 5)) (compare_ranks_sum m_list 0 (15 * 5)))

/-- Embeds the manual `impl PartialOrd for PokerHandRank` of
src/poker_hand.rs (method named `partial_cmp` there): category value
first, then `compare_ranks` on the payload slots; the `unreachable!`
arm is embedded as `none`. -/
def PokerHandRank.pcmp (a b : PokerHandRank) : Option Ordering :=
  let self_value := rank_to_value a
  let other_value := rank_to_value b
  if self_value < other_value then some .lt
  else if self_value > other_value then some .gt
  else
    match a, b with
    | .HighCard a1 b1 c1 d1 e1, .HighCard a2 b2 c2 d2 e2 =>
        compare_ranks [a1, b1, c1, d1, e1] [a2, b2, c2, d2, e2]
    | .Pair a1 b1 c1 d1, .Pair a2 b2 c2 d2 =>
        compare_ranks [a1, b1, c1, d1] [a2, b2, c2, d2]
    | .TwoPair a1 b1 c1, .TwoPair a2 b2 c2 =>
        compare_ranks [a1, b1, c1] [a2, b2, c2]
    | .ThreeOfAKind a1 b1 c1, .ThreeOfAKind a2 b2 c2 =>
        compare_ranks [a1, b1, c1] [a2, b2, c2]
    | .Straight r1, .Straight r2 => some (natCmp r1.value r2.value)
    | .Flush a1 b1 c1 d1 e1, .Flush a2 b2 c2 d2 e2 =>
        compare_ranks [a1, b1, c1, d1, e1] [a2, b2, c2, d2, e2]
    | .FullHouse r1 t1, .FullHouse r2 t2 => compare_ranks [r1, t1] [r2, t2]
    | .FourOfAKind r1 k1, .FourOfAKind r2 k2 => compare_ranks [r1, k1] [r2, k2]
    | .StraightFlush r1, .StraightFlush r2 => some (natCmp r1.value r2.value)
    | _, _ => none

/-- The Rust discriminant of a `PokerHandRank` variant (declaration order,
`HighCard` = 0 through `StraightFlush` = 8), used by the derived `Ord`. -/
def PokerHandRank.discr : PokerHandRank → Nat
  | .HighCard .. => 0
  | .Pair .. => 1
  | .TwoPair .. => 2
  | .ThreeOfAKind .. => 3
  | .Straight .. => 4
  | .Flush .. => 5
  | .FullHouse .. => 6
  | .FourOfAKind .. => 7
  | .StraightFlush .. => 8

/-- Embeds the derived `Ord` on `PokerHandRank` (src/poker_hand.rs derives
`Ord`): different variants compare by discriminant, equal variants compare
fields left to right with `Rank`'s derived `Ord`. This is the ordering
used by `Iterator::max` and `sort_unstable`. -/
def PokerHandRank.cmp : PokerHandRank → PokerHandRank → Ordering
  | .HighCard a1 b1 c1 d1 e1, .HighCard a2 b2 c2 d2 e2 =>
      (a1.cmp a2).then ((b1.cmp b2).then ((c1.cmp c2).then ((d1.cmp d2).then (e1.cmp e2))))
  | .Pair a1 b1 c1 d1, .Pair a2 b2 c2 d2 =>
      (a1.cmp a2).then ((b1.cmp b2).then ((c1.cmp c2).then (d1.cmp d2)))
  | .TwoPair a1 b1 c1, .TwoPair a2 b2 c2 =>
      (a1.cmp a2).then ((b1.cmp b2).then (c1.cmp c2))
  | .ThreeOfAKind a1 b1 c1, .ThreeOfAKind a2 b2 c2 =>
      (a1.cmp a2).then ((b1.cmp b2).then (c1.cmp c2))
  | .Straight a1, .Straight a2 => a1.cmp a2
  | .Flush a1 b1 c1 d1 e1, .Flush a2 b2 c2 d2 e2 =>
      (a1.cmp a2).then ((b1.cmp b2).then ((c1.cmp c2).then ((d1.cmp d2).then (e1.cmp e2))))
  | .FullHouse a1 b1, .FullHouse a2 b2 => (a1.cmp a2).then (b1.cmp b2)
  | .FourOfAKind a1 b1, .FourOfAKind a2 b2 => (a1.cmp a2).then (b1.cmp b2)
  | .StraightFlush a1, .StraightFlush a2 => a1.cmp a2
  | a, b => natCmp a.discr b.discr

/-- The payload ranks of a hand, most significant first: the tuple the
specification compares lexicographically. -/
def PokerHandRank.payload : PokerHandRank → List Rank
  | .HighCard a b c d e => [a, b, c, d, e]
  | .Pair a b c d => [a, b, c, d]
  | .TwoPair a b c => [a, b, c]
  | .ThreeOfAKind a b c => [a, b, c]
  | .Straight a => [a]
  | .Flush a b c d e => [a, b, c, d, e]
  | .FullHouse a b => [a, b]
  | .FourOfAKind a b => [a, b]
  | .StraightFlush a => [a]

/-- Most-significant-first lexicographic comparison of rank tuples, ranks
compared numerically: the specification's reference ordering for payload
tie-breaks. -/
def lexRanks : List Rank → List Rank → Ordering
  | [], [] => .eq
  | [], _ :: _ => .lt
  | _ :: _, [] => .gt
  | a :: u, b :: v => (Rank.cmp a b).then (lexRanks u v)

/-- The sort key of `cards.sort_unstable_by_key(|card| card.rank)`:
comparison of the rank values (`Rank`'s derived `Ord` compares the
discriminants, which are the values). -/
def rankLE (a b : Card) : Prop :=
  a.rank.value ≤ b.rank.value

instance : DecidableRel rankLE := fun a b => Nat.decLe a.rank.value b.rank.value

instance : IsTotal Card rankLE := ⟨fun a b => Nat.le_total a.rank.value b.rank.value⟩

instance : IsTrans Card rankLE := ⟨fun _ _ _ => Nat.le_trans⟩

/-- Embeds the sorting prologue of `cards_to_hand` (src/poker_hand.rs
lines 124-129): sort ascending by rank, then reverse so the highest card
is first. The source's unstable sort is embedded by insertion sort; the
classification reads only the rank sequence and the suit multiset, which
any by-rank sort produces identically. -/
def sortCardsDesc (cards : List Card) : List Card :=
  (List.insertionSort rankLE cards).reverse

/-- Embeds the straight adjacency test
`cards.windows(2).all(|pair| pair[1].rank.next() == pair[0].rank)`. -/
def straightChain : List Card → Bool
  | c1 :: c2 :: rest => (c2.rank.next.req c1.rank) && straightChain (c2 :: rest)
  | _ => true

/-- Embeds the flush test
`cards.iter().all(|card| card.suit == cards[0].suit)`. -/
def suitsAllEqual (cards : List Card) : Bool :=
  cards.all (fun card => card.suit == (cards.getD 0 default).suit)

/-- Embeds the classification body of `cards_to_hand` applied to the
already sorted card array (src/poker_hand.rs lines 131-236); out-of-range
indexing cannot occur on the length-5 arrays of the source and is embedded
with `getD`. -/
def handOfSorted (cards : List Card) : PokerHandRank :=
  let rk := fun i => (cards.getD i default).rank
  if straightChain cards && suitsAllEqual cards then
    .StraightFlush (rk 0)
  else if (rk 0).req (rk 1) && (rk 1).req (rk 2) && (rk 2).req (rk 3) then
    .FourOfAKind (rk 0) (rk 4)
  else if (rk 1).req (rk 2) && (rk 2).req (rk 3) && (rk 3).req (rk 4) then
    .FourOfAKind (rk 1) (rk 0)
  else if (rk 0).req (rk 1) && (rk 1).req (rk 2) && (rk 3).req (rk 4) then
    .FullHouse (rk 0) (rk 3)
  else if (rk 0).req (rk 1) && (rk 2).req (rk 3) && (rk 3).req (rk 4) then
    .FullHouse (rk 2) (rk 0)
  else if suitsAllEqual cards then
    .Flush (rk 0) (rk 1) (rk 2) (rk 3) (rk 4)
  else if straightChain cards then
    .Straight (rk 0)
  else if (rk 0).req (rk 1) && (rk 1).req (rk 2) then
    .ThreeOfAKind (rk 0) (rk 3) (rk 4)
  else if (rk 1).req (rk 2) && (rk 2).req (rk 3) then
    .ThreeOfAKind (rk 1) (rk 0) (rk 4)
  else if (rk 2).req (rk 3) && (rk 3).req (rk 4) then
    .ThreeOfAKind (rk 2) (rk 0) (rk 1)
  else if (rk 0).req (rk 1) && (rk 2).req (rk 3) then
    .TwoPair (rk 0) (rk 2) (rk 4)
  else if (rk 0).req (rk 1) && (rk 3).req (rk 4) then
    .TwoPair (rk 0) (rk 3) (rk 2)
  else if (rk 1).req (rk 2) && (rk 3).req (rk 4) then
    .TwoPair (rk 1) (rk 3) (rk 0)
  else if (rk 0).req (rk 1) then
    .Pair (rk 0) (rk 2) (rk 3) (rk 4)
  else if (rk 1).req (rk 2) then
    .Pair (rk 1) (rk 0) (rk 3) (rk 4)
  else if (rk 2).req (rk 3) then
    .Pair (rk 2) (rk 0) (rk 1) (rk 4)
  else if (rk 3).req (rk 4) then
    .Pair (rk 3) (rk 0) (rk 1) (rk 2)
  else
    .HighCard (rk 0) (rk 1) (rk 2) (rk 3) (rk 4)

/-- Embeds `cards_to_hand` of src/poker_hand.rs: sort the five cards by
rank descending, then classify. -/
def cards_to_hand (input : List Card) : PokerHandRank :=
  handOfSorted (sortCardsDesc input)

/-- Embeds `get_combinations` of src/poker_utils.rs: the five nested index
loops `i in 0..3`, `j in i+1..4`, `k in j+1..5`, `l in k+1..6`,
`m in l+1..7`. -/
def get_combinations (cards : List Card) : List (List Card) :=
  (List.range 3).flatMap (fun i =>
    (List.range' (i + 1) (4 - (i + 1))).flatMap (fun j =>
      (List.range' (j + 1) (5 - (j + 1))).flatMap (fun k =>
        (List.range' (k + 1) (6 - (k + 1))).flatMap (fun l =>
          (List.range' (l + 1) (7 - (l + 1))).map (fun m =>
            [cards.getD i default, cards.getD j default, cards.getD k default,
             cards.getD l default, cards.getD m default])))))

/-- The index tuples generated by the loops of `get_combinations`,
independent of the card array. -/
def combIndices : List (List Nat) :=
  (List.range 3).flatMap (fun i =>
    (List.range' (i + 1) (4 - (i + 1))).flatMap (fun j =>
      (List.range' (j + 1) (5 - (j + 1))).flatMap (fun k =>
        (List.range' (k + 1) (6 - (k + 1))).flatMap (fun l =>
          (List.range' (l + 1) (7 - (l + 1))).map (fun m => [i, j, k, l, m])))))

/-- One fold step of `Iterator::max`: keep the current maximum, preferring
the later element on ties. -/
def maxStep (acc : Option PokerHandRank) (x : PokerHandRank) : Option PokerHandRank :=
  match acc with
  | none => some x
  | some a => if PokerHandRank.cmp a x = .gt then some a else some x

/-- Embeds `Iterator::max` with the derived `Ord` of `PokerHandRank`
(`none` for the empty iterator). -/
def iterMax (l : List PokerHandRank) : Option PokerHandRank :=
  l.foldl maxStep none

/-- Embeds `get_best_hand` of src/poker_utils.rs up to the final `unwrap`:
classify every enumerated combination and take the maximum. -/
def get_best_hand_opt (cards : List Card) : Option PokerHandRank :=
  iterMax ((get_combinations cards).map cards_to_hand)

/-- Embeds `get_best_hand` of src/poker_utils.rs; the `unwrap` is total
because the enumerator always yields 21 combinations. -/
def get_best_hand (cards : List Card) : PokerHandRank :=
  (get_best_hand_opt cards).getD default

/-- The 7-card array `[hand[0], hand[1], community[0], .., community[4]]`
built inside `determine_winner`. -/
def sevenCards (hand : Card × Card) (community : List Card) : List Card :=
  [hand.1, hand.2, community.getD 0 default, community.getD 1 default,
   community.getD 2 default, community.getD 3 default, community.getD 4 default]

/-- The per-player best hands computed by `determine_winner`, in input
order. -/
def bestHands (hands : List (Card × Card)) (community : List Card) : List PokerHandRank :=
  hands.map (fun hand => get_best_hand (sevenCards hand community))

/-- Embeds `determine_winner` of src/poker_utils.rs: the maximum best hand
(`unwrap` on an empty player list embedded as `none`), then the indices
whose best hand is `==` (the manual `PartialEq`) to it, paired with all
best hands. -/
def determine_winner (hands : List (Card × Card)) (community : List Card) :
    Option (List Nat × List PokerHandRank) :=
  let best_hands := bestHands hands community
  match iterMax best_hands with
  | none => none
  | some winning_hand =>
      some
        (best_hands.enum.filterMap
          (fun p => if p.2.req winning_hand then some p.1 else none),
         best_hands)

/-- Embeds `deck_without_cards` of src/poker_utils.rs: for each dead card,
retain only the deck cards different from it. -/
def deck_without_cards (deck cards : List Card) : List Card :=
  cards.foldl (fun d card => d.filter (fun c => c != card)) deck

/-- Embeds the board-completion loop of `run_out` (src/main.rs lines
24-26): `while community.len() < 5 { community.push(deck.pop().unwrap()) }`.
`Vec::pop` removes from the end of the deck; popping an empty deck panics
and is embedded as `none`. -/
def completeBoard (deck community : List Card) : Option (List Card) :=
  if _h : community.length < 5 then
    match deck.getLast? with
    | none => none
    | some c => completeBoard deck.dropLast (community ++ [c])
  else some community
termination_by 5 - community.length
decreasing_by simp [List.length_append]; omega

/-- Embeds the credit loop `for i in &idx { wins[*i] += q }` of `run_out`,
with `q` the per-winner credit `1.0 / idx.len()`. -/
def creditFold (q : ℚ) (idx : List Nat) (wins : List ℚ) : List ℚ :=
  idx.foldl (fun w i => w.set i (w.getD i 0 + q)) wins

/-- Embeds one iteration of the trial loop of `run_out` (src/main.rs lines
18-36): shuffle — abstracted by the `oracle` giving the shuffled deck of
trial `t` — complete the board, resolve winners (the
`try_into().unwrap()` to a 5-card array and the `unwrap` of
`determine_winner` on an empty player list are embedded as `none`), then
add `1/(number of winners)` to each winning accumulator slot. `f32`
arithmetic is embedded by exact rationals. -/
def runTrial (oracle : Nat → List Card → List Card) (deck : List Card)
    (hands : List (Card × Card)) (community : List Card) (wins : List ℚ)
    (t : Nat) : Option (List ℚ) :=
  match completeBoard (oracle t deck) community with
  | none => none
  | some community5 =>
      if community5.length = 5 then
        match determine_winner hands community5 with
        | none => none
        | some (idx, _) => some (creditFold (1 / (idx.length : ℚ)) idx wins)
      else none

/-- The accumulator state of `run_out` after `t` of its trials, starting
from the zero vector `vec![0.0; hands.len()]`. -/
def runOutAcc (oracle : Nat → List Card → List Card) (deck : List Card)
    (hands : List (Card × Card)) (community : List Card) (t : Nat) :
    Option (List ℚ) :=
  (List.range t).foldlM (runTrial oracle deck hands community)
    (List.replicate hands.length 0)

/-- Embeds `run_out` of src/main.rs: run the trial loop for `iterations`
trials, then divide every accumulator by the trial count. -/
def run_out (oracle : Nat → List Card → List Card) (deck : List Card)
    (hands : List (Card × Card)) (community : List Card) (iterations : Nat) :
    Option (List ℚ) :=
  match runOutAcc oracle deck hands community iterations with
  | none => none
  | some wins => some (wins.map (fun c => c / (iterations : ℚ)))

/-- The specification ordering: category discriminant first, then
most-significant-first lexicographic comparison of the payload tuple. -/
def keyCmp (a b : PokerHandRank) : Ordering :=
  (natCmp a.discr b.discr).then (lexRanks a.payload b.payload)

/-- Rank-sequence version of `straightChain`: the adjacency test reads
only the ranks. -/
def rchain : List Rank → Bool
  | r1 :: r2 :: rest => (r2.next.req r1) && rchain (r2 :: rest)
  | _ => true

/-- Rank-sequence-and-flush-flag version of the classification body:
`handOfSorted` reads its sorted card list only through the rank sequence
and the all-suits-equal flag. -/
def handOfRanks (ranks : List Rank) (flush : Bool) : PokerHandRank :=
  let rk := fun i => ranks.getD i Rank.Two
  if rchain ranks && flush then
    .StraightFlush (rk 0)
  else if (rk 0).req (rk 1) && (rk 1).req (rk 2) && (rk 2).req (rk 3) then
    .FourOfAKind (rk 0) (rk 4)
  else if (rk 1).req (rk 2) && (rk 2).req (rk 3) && (rk 3).req (rk 4) then
    .FourOfAKind (rk 1) (rk 0)
  else if (rk 0).req (rk 1) && (rk 1).req (rk 2) && (rk 3).req (rk 4) then
    .FullHouse (rk 0) (rk 3)
  else if (rk 0).req (rk 1) && (rk 2).req (rk 3) && (rk 3).req (rk 4) then
    .FullHouse (rk 2) (rk 0)
  else if flush then
    .Flush (rk 0) (rk 1) (rk 2) (rk 3) (rk 4)
  else if rchain ranks then
    .Straight (rk 0)
  else if (rk 0).req (rk 1) && (rk 1).req (rk 2) then
    .ThreeOfAKind (rk 0) (rk 3) (rk 4)
  else if (rk 1).req (rk 2) && (rk 2).req (rk 3) then
    .ThreeOfAKind (rk 1) (rk 0) (rk 4)
  else if (rk 2).req (rk 3) && (rk 3).req (rk 4) then
    .ThreeOfAKind (rk 2) (rk 0) (rk 1)
  else if (rk 0).req (rk 1) && (rk 2).req (rk 3) then
    .TwoPair (rk 0) (rk 2) (rk 4)
  else if (rk 0).req (rk 1) && (rk 3).req (rk 4) then
    .TwoPair (rk 0) (rk 3) (rk 2)
  else if (rk 1).req (rk 2) && (rk 3).req (rk 4) then
    .TwoPair (rk 1) (rk 3) (rk 0)
  else if (rk 0).req (rk 1) then
    .Pair (rk 0) (rk 2) (rk 3) (rk 4)
  else if (rk 1).req (rk 2) then
    .Pair (rk 1) (rk 0) (rk 3) (rk 4)
  else if (rk 2).req (rk 3) then
    .Pair (rk 2) (rk 0) (rk 1) (rk 4)
  else if (rk 3).req (rk 4) then
    .Pair (rk 3) (rk 0) (rk 1) (rk 2)
  else
    .HighCard (rk 0) (rk 1) (rk 2) (rk 3) (rk 4)

/-- An identity shuffle oracle for concrete simulator runs. -/
def wOracle : Nat → List Card → List Card := fun _ d => d

/-- A concrete two-player matchup (AhAs versus KdKh). -/
def wHands : List (Card × Card) :=
  [(⟨.Ace, .Hearts⟩, ⟨.Ace, .Spades⟩), (⟨.King, .Diamonds⟩, ⟨.King, .Hearts⟩)]

/-- A concrete full board (Ad Ks 2c 7h 9d). -/
def wBoard : List Card :=
  [⟨.Ace, .Diamonds⟩, ⟨.King, .Spades⟩, ⟨.Two, .Clubs⟩, ⟨.Seven, .Hearts⟩,
   ⟨.Nine, .Diamonds⟩]

/-- The wheel five-card set {Ah, 2s, 3d, 4c, 5h}. -/
def wheelCards : List Card :=
  [⟨.Ace, .Hearts⟩, ⟨.Two, .Spades⟩, ⟨.Three, .Diamonds⟩, ⟨.Four, .Clubs⟩,
   ⟨.Five, .Hearts⟩]

/-!  Theorems  -/

/-!  Basic facts about ranks and comparisons.  -/

theorem Rank.value_inj {a b : Rank} (h : a.value = b.value) : a = b := by
  cases a <;> cases b <;> revert h <;> decide

theorem Rank.req_iff {a b : Rank} : a.req b = true ↔ a = b := by
  cases a <;> cases b <;> decide

theorem natCmp_self (a : Nat) : natCmp a a = .eq := by
  simp [natCmp]

theorem natCmp_eq_iff {a b : Nat} : natCmp a b = .eq ↔ a = b := by
  unfold natCmp
  split <;> rename_i h1
  · simp; omega
  · split <;> rename_i h2
    · simp; omega
    · simp; omega

theorem natCmp_lt_iff {a b : Nat} : natCmp a b = .lt ↔ a < b := by
  unfold natCmp
  split <;> rename_i h1
  · simp [h1]
  · split <;> simp <;> omega

theorem natCmp_gt_iff {a b : Nat} : natCmp a b = .gt ↔ b < a := by
  unfold natCmp
  split <;> rename_i h1
  · simp; omega
  · split <;> simp <;> omega

theorem natCmp_swap (a b : Nat) : (natCmp a b).swap = natCmp b a := by
  unfold natCmp
  rcases Nat.lt_trichotomy a b with h | h | h
  · simp [h, Nat.lt_asymm h, Ordering.swap]
  · simp [h, Nat.lt_irrefl, Ordering.swap]
  · simp [h, Nat.lt_asymm h, Ordering.swap]

theorem Rank.cmp_eq_iff {a b : Rank} : a.cmp b = .eq ↔ a = b := by
  rw [Rank.cmp, natCmp_eq_iff]
  exact ⟨Rank.value_inj, fun h => h ▸ rfl⟩

theorem lexRanks_self : ∀ u, lexRanks u u = .eq
  | [] => rfl
  | a :: u => by simp [lexRanks, lexRanks_self u, natCmp_self, Rank.cmp, Ordering.then]

theorem lexRanks_eq_iff : ∀ {u v}, lexRanks u v = .eq ↔ u = v
  | [], [] => by simp [lexRanks]
  | [], _ :: _ => by simp [lexRanks]
  | _ :: _, [] => by simp [lexRanks]
  | a :: u, b :: v => by
    rw [lexRanks, Ordering.then_eq_eq, Rank.cmp_eq_iff, lexRanks_eq_iff]
    simp

theorem lexRanks_swap : ∀ u v, (lexRanks u v).swap = lexRanks v u
  | [], [] => rfl
  | [], _ :: _ => rfl
  | _ :: _, [] => rfl
  | a :: u, b :: v => by
    rw [lexRanks, lexRanks, Ordering.swap_then, lexRanks_swap u v, Rank.cmp,
      Rank.cmp, natCmp_swap]

theorem lexRanks_le_trans :
    ∀ u v w, lexRanks u v ≠ .gt → lexRanks v w ≠ .gt → lexRanks u w ≠ .gt
  | [], _, w, _, _ => by cases w <;> simp [lexRanks]
  | _ :: _, [], _, h1, _ => by simp [lexRanks] at h1
  | _ :: _, _ :: _, [], _, h2 => by simp [lexRanks] at h2
  | a :: u, b :: v, c :: w, h1, h2 => by
    rw [lexRanks] at h1 h2 ⊢
    rw [Rank.cmp] at h1 h2 ⊢
    rcases hab : natCmp a.value b.value with _ | _ | _ <;> rw [hab] at h1 <;>
      rcases hbc : natCmp b.value c.value with _ | _ | _ <;> rw [hbc] at h2 <;>
      simp only [Ordering.then] at h1 h2 ⊢
    · have : a.value < c.value :=
        Nat.lt_trans (natCmp_lt_iff.mp hab) (natCmp_lt_iff.mp hbc)
      rw [natCmp_lt_iff.mpr this]; simp
    · have : a.value < c.value := by
        have h := natCmp_lt_iff.mp hab
        have h' := natCmp_eq_iff.mp hbc
        omega
      rw [natCmp_lt_iff.mpr this]; simp
    · exact absurd rfl h2
    · have : a.value < c.value := by
        have h := natCmp_eq_iff.mp hab
        have h' := natCmp_lt_iff.mp hbc
        omega
      rw [natCmp_lt_iff.mpr this]; simp
    · have : a.value = c.value := by
        have h := natCmp_eq_iff.mp hab
        have h' := natCmp_eq_iff.mp hbc
        omega
      rw [natCmp_eq_iff.mpr this]
      exact lexRanks_le_trans u v w h1 h2
    · exact absurd rfl h2
    · exact absurd rfl h1
    · exact absurd rfl h1
    · exact absurd rfl h1

/-!  Characterization of the derived ordering.  -/

theorem then_id_right (o : Ordering) : o.then .eq = o := by
  cases o <;> rfl

theorem then_id_left (o : Ordering) : Ordering.eq.then o = o := rfl

theorem cmp_eq_keyCmp (a b : PokerHandRank) : PokerHandRank.cmp a b = keyCmp a b := by
  cases a <;> cases b <;>
    first
      | rfl
      | simp [PokerHandRank.cmp, keyCmp, PokerHandRank.discr, PokerHandRank.payload,
          lexRanks, natCmp_self, then_id_left, then_id_right]

theorem discr_payload_inj {a b : PokerHandRank}
    (hd : a.discr = b.discr) (hp : a.payload = b.payload) : a = b := by
  cases a <;> cases b <;>
    simp_all [PokerHandRank.discr, PokerHandRank.payload]

theorem cmp_self (a : PokerHandRank) : PokerHandRank.cmp a a = .eq := by
  rw [cmp_eq_keyCmp, keyCmp, natCmp_self, lexRanks_self]
  rfl

theorem cmp_eq_iff_eq {a b : PokerHandRank} : PokerHandRank.cmp a b = .eq ↔ a = b := by
  constructor
  · intro h
    rw [cmp_eq_keyCmp, keyCmp, Ordering.then_eq_eq] at h
    exact discr_payload_inj (natCmp_eq_iff.mp h.1) (lexRanks_eq_iff.mp h.2)
  · rintro rfl
    exact cmp_self a

theorem cmp_swap (a b : PokerHandRank) :
    (PokerHandRank.cmp a b).swap = PokerHandRank.cmp b a := by
  rw [cmp_eq_keyCmp, cmp_eq_keyCmp, keyCmp, keyCmp, Ordering.swap_then,
    natCmp_swap, lexRanks_swap]

theorem cmp_le_trans {a b c : PokerHandRank}
    (h1 : PokerHandRank.cmp a b ≠ .gt) (h2 : PokerHandRank.cmp b c ≠ .gt) :
    PokerHandRank.cmp a c ≠ .gt := by
  rw [cmp_eq_keyCmp, keyCmp] at h1 h2 ⊢
  rcases hab : natCmp a.discr b.discr with _ | _ | _ <;> rw [hab] at h1 <;>
    rcases hbc : natCmp b.discr c.discr with _ | _ | _ <;> rw [hbc] at h2 <;>
    simp only [Ordering.then] at h1 h2 ⊢
  · have : a.discr < c.discr :=
      Nat.lt_trans (natCmp_lt_iff.mp hab) (natCmp_lt_iff.mp hbc)
    rw [natCmp_lt_iff.mpr this]; simp
  · have : a.discr < c.discr := by
      have h := natCmp_lt_iff.mp hab
      have h' := natCmp_eq_iff.mp hbc
      omega
    rw [natCmp_lt_iff.mpr this]; simp
  · exact absurd rfl h2
  · have : a.discr < c.discr := by
      have h := natCmp_eq_iff.mp hab
      have h' := natCmp_lt_iff.mp hbc
      omega
    rw [natCmp_lt_iff.mpr this]; simp
  · have : a.discr = c.discr := by
      have h := natCmp_eq_iff.mp hab
      have h' := natCmp_eq_iff.mp hbc
      omega
    rw [natCmp_eq_iff.mpr this]
    exact lexRanks_le_trans _ _ _ h1 h2
  · exact absurd rfl h2
  · exact absurd rfl h1
  · exact absurd rfl h1
  · exact absurd rfl h1

theorem cmp_gt_asymm {a b : PokerHandRank}
    (h : PokerHandRank.cmp a b = .gt) : PokerHandRank.cmp b a ≠ .gt := by
  rw [← cmp_swap, h]
  decide

/-- C10: the derived total order actually used by the `max()` selections —
`PokerHandRank.cmp` is the comparator `iterMax` folds with inside
`get_best_hand` and `determine_winner` — compares the category
discriminant (HighCard = 0 lowest through StraightFlush = 8 highest)
first and then the full payload tuple lexicographically with ranks
compared numerically, discriminating every payload slot. -/
theorem derived_ord_is_lexicographic (a b : PokerHandRank) :
    PokerHandRank.cmp a b =
      (natCmp a.discr b.discr).then (lexRanks a.payload b.payload) :=
  cmp_eq_keyCmp a b

/-- C6: the manual `PartialEq` holds exactly when the categories agree and
the payload tuples agree field by field; hands of different categories are
never equal. -/
theorem partialeq_iff_same_category_and_payload (a b : PokerHandRank) :
    a.req b = true ↔ a.discr = b.discr ∧ a.payload = b.payload := by
  cases a <;> cases b <;>
    simp_all [PokerHandRank.req, PokerHandRank.discr, PokerHandRank.payload,
      Rank.req_iff] <;> tauto

/-- C1: the manual `partial_cmp` does not agree with lexicographic payload
comparison: its multiplier sequence is `75, 5, 0, 0, 0` (starting at
`15 * 5` and integer-dividing by 15), so every payload slot after the
second is weighted by zero. At HighCard(A,K,Q,J,9) versus
HighCard(A,K,J,T,9) — two distinct hands of the same category — it
returns `Equal` while lexicographic comparison returns `Greater`. -/
theorem pcmp_ignores_third_kicker :
    PokerHandRank.pcmp (.HighCard .Ace .King .Queen .Jack .Nine)
        (.HighCard .Ace .King .Jack .Ten .Nine) = some .eq ∧
    lexRanks (PokerHandRank.payload (.HighCard .Ace .King .Queen .Jack .Nine))
        (PokerHandRank.payload (.HighCard .Ace .King .Jack .Ten .Nine)) = .gt ∧
    (PokerHandRank.HighCard .Ace .King .Queen .Jack .Nine) ≠
      (PokerHandRank.HighCard .Ace .King .Jack .Ten .Nine) := by
  decide

/-- C7: the wheel input {Ah,2s,3d,4c,5h} sorts descending to
[A,5,4,3,2], the straight adjacency chain breaks between the Ace and the
Five (Five's successor is Six, not Ace), and the hand falls through to
HighCard(Ace, Five, Four, Three, Two) rather than any straight. -/
theorem wheel_falls_through_to_high_card :
    sortCardsDesc wheelCards =
      [⟨.Ace, .Hearts⟩, ⟨.Five, .Hearts⟩, ⟨.Four, .Clubs⟩, ⟨.Three, .Diamonds⟩,
       ⟨.Two, .Spades⟩] ∧
    Rank.req (Rank.next Rank.Five) Rank.Ace = false ∧
    straightChain (sortCardsDesc wheelCards) = false ∧
    cards_to_hand wheelCards = .HighCard .Ace .Five .Four .Three .Two := by
  decide

/-!  The maximum fold of `Iterator::max`.  -/

theorem foldl_maxStep_spec (l : List PokerHandRank) :
    ∀ a, ∃ m, l.foldl maxStep (some a) = some m ∧ m ∈ a :: l ∧
      PokerHandRank.cmp a m ≠ .gt ∧ ∀ x ∈ l, PokerHandRank.cmp x m ≠ .gt := by
  induction l with
  | nil =>
    intro a
    refine ⟨a, rfl, by simp, ?_, by simp⟩
    rw [cmp_self]
    decide
  | cons x l ih =>
    intro a
    by_cases h : PokerHandRank.cmp a x = .gt
    · obtain ⟨m, hm, hmem, hle, hall⟩ := ih a
      refine ⟨m, ?_, ?_, hle, ?_⟩
      · simpa [maxStep, h] using hm
      · simp only [List.mem_cons] at hmem ⊢
        tauto
      · intro y hy
        rcases List.mem_cons.mp hy with rfl | hy'
        · exact cmp_le_trans (cmp_gt_asymm h) hle
        · exact hall y hy'
    · obtain ⟨m, hm, hmem, hle, hall⟩ := ih x
      refine ⟨m, ?_, ?_, ?_, ?_⟩
      · simpa [maxStep, h] using hm
      · simp only [List.mem_cons] at hmem ⊢
        tauto
      · exact cmp_le_trans h hle
      · intro y hy
        rcases List.mem_cons.mp hy with rfl | hy'
        · exact hle
        · exact hall y hy'

theorem iterMax_spec {l : List PokerHandRank} (h : l ≠ []) :
    ∃ m, iterMax l = some m ∧ m ∈ l ∧ ∀ x ∈ l, PokerHandRank.cmp x m ≠ .gt := by
  match l with
  | [] => exact absurd rfl h
  | x :: l =>
    obtain ⟨m, hm, hmem, hle, hall⟩ := foldl_maxStep_spec l x
    refine ⟨m, hm, hmem, ?_⟩
    intro y hy
    rcases List.mem_cons.mp hy with rfl | hy'
    · exact hle
    · exact hall y hy'

/-!  The combination enumerator.  -/

theorem get_combinations_eq (cards : List Card) :
    get_combinations cards =
      combIndices.map (fun ix => ix.map (fun t => cards.getD t default)) := rfl

theorem combIndices_elem_facts :
    ∀ u ∈ combIndices, u.length = 5 ∧ u.Nodup ∧ (∀ t ∈ u, t < 7) ∧
      List.Sorted (· < ·) u := by
  decide

theorem combIndices_pairwise_ne : List.Pairwise (· ≠ ·) combIndices := by
  decide

theorem length_eq_seven {l : List Card} (h : l.length = 7) :
    ∃ a b c d e f g, l = [a, b, c, d, e, f, g] := by
  rcases l with _ | ⟨a, l⟩; · simp at h
  rcases l with _ | ⟨b, l⟩; · simp at h
  rcases l with _ | ⟨c, l⟩; · simp at h
  rcases l with _ | ⟨d, l⟩; · simp at h
  rcases l with _ | ⟨e, l⟩; · simp at h
  rcases l with _ | ⟨f, l⟩; · simp at h
  rcases l with _ | ⟨g, l⟩; · simp at h
  rcases l with _ | ⟨x, l⟩
  · exact ⟨a, b, c, d, e, f, g, rfl⟩
  · simp at h

set_option maxRecDepth 8000 in
theorem sublist_len5_mem_comb {cards s : List Card} (h7 : cards.length = 7)
    (hsub : s.Sublist cards) (hlen : s.length = 5) :
    s ∈ get_combinations cards := by
  obtain ⟨a, b, c, d, e, f, g, rfl⟩ := length_eq_seven h7
  have hmap : ([a, b, c, d, e, f, g] : List Card) =
      List.map (fun t => List.getD [a, b, c, d, e, f, g] t default)
        [0, 1, 2, 3, 4, 5, 6] := rfl
  rw [hmap] at hsub
  obtain ⟨u, hu, rfl⟩ := List.sublist_map_iff.mp hsub
  have hu128 : u ∈ List.sublists [0, 1, 2, 3, 4, 5, 6] := List.mem_sublists.mpr hu
  have hlen5 : u.length = 5 := by simpa using hlen
  have key : ∀ v ∈ List.sublists [0, 1, 2, 3, 4, 5, 6],
      v.length = 5 → v ∈ combIndices := by decide
  rw [get_combinations_eq]
  exact List.mem_map_of_mem _ (key u hu128 hlen5)

/-- C2: `get_best_hand` on a 7-card array returns the maximum, under the
derived total order, of `cards_to_hand` over the enumerated 5-card
combinations; the failure path of the final `unwrap` (`none` here) is
unreachable; and the result is at least the classification of every
5-card subset of the input. -/
theorem get_best_hand_is_max (cards : List Card) (h7 : cards.length = 7) :
    ∃ h, get_best_hand_opt cards = some h ∧ get_best_hand cards = h ∧
      h ∈ (get_combinations cards).map cards_to_hand ∧
      (∀ s ∈ get_combinations cards, PokerHandRank.cmp (cards_to_hand s) h ≠ .gt) ∧
      (∀ s, s.Sublist cards → s.length = 5 →
        PokerHandRank.cmp (cards_to_hand s) h ≠ .gt) := by
  have hne : (get_combinations cards).map cards_to_hand ≠ [] := by
    rw [get_combinations_eq]
    simp only [ne_eq, List.map_eq_nil_iff]
    decide
  obtain ⟨m, hm, hmem, hall⟩ := iterMax_spec (l := (get_combinations cards).map cards_to_hand) hne
  refine ⟨m, hm, ?_, hmem, ?_, ?_⟩
  · rw [get_best_hand, get_best_hand_opt, hm]
    rfl
  · intro s hs
    exact hall _ (List.mem_map_of_mem _ hs)
  · intro s hsub hlen
    exact hall _ (List.mem_map_of_mem _ (sublist_len5_mem_comb h7 hsub hlen))

/-- Concrete instantiation of `get_best_hand_is_max` at the straight-flush
test vector of the repository's unit tests. -/
theorem get_best_hand_is_max_witness :
    (([⟨.Ace, .Spades⟩, ⟨.King, .Spades⟩, ⟨.Queen, .Spades⟩, ⟨.Jack, .Spades⟩,
       ⟨.Ten, .Spades⟩, ⟨.Two, .Hearts⟩, ⟨.Three, .Clubs⟩] : List Card).length = 7) ∧
    ∃ h, get_best_hand_opt
        [⟨.Ace, .Spades⟩, ⟨.King, .Spades⟩, ⟨.Queen, .Spades⟩, ⟨.Jack, .Spades⟩,
         ⟨.Ten, .Spades⟩, ⟨.Two, .Hearts⟩, ⟨.Three, .Clubs⟩] = some h ∧
      get_best_hand
        [⟨.Ace, .Spades⟩, ⟨.King, .Spades⟩, ⟨.Queen, .Spades⟩, ⟨.Jack, .Spades⟩,
         ⟨.Ten, .Spades⟩, ⟨.Two, .Hearts⟩, ⟨.Three, .Clubs⟩] = h ∧
      h ∈ (get_combinations
        [⟨.Ace, .Spades⟩, ⟨.King, .Spades⟩, ⟨.Queen, .Spades⟩, ⟨.Jack, .Spades⟩,
         ⟨.Ten, .Spades⟩, ⟨.Two, .Hearts⟩, ⟨.Three, .Clubs⟩]).map cards_to_hand ∧
      (∀ s ∈ get_combinations
        [⟨.Ace, .Spades⟩, ⟨.King, .Spades⟩, ⟨.Queen, .Spades⟩, ⟨.Jack, .Spades⟩,
         ⟨.Ten, .Spades⟩, ⟨.Two, .Hearts⟩, ⟨.Three, .Clubs⟩],
        PokerHandRank.cmp (cards_to_hand s) h ≠ .gt) ∧
      (∀ s, s.Sublist
        [⟨.Ace, .Spades⟩, ⟨.King, .Spades⟩, ⟨.Queen, .Spades⟩, ⟨.Jack, .Spades⟩,
         ⟨.Ten, .Spades⟩, ⟨.Two, .Hearts⟩, ⟨.Three, .Clubs⟩] → s.length = 5 →
        PokerHandRank.cmp (cards_to_hand s) h ≠ .gt) :=
  ⟨by decide, get_best_hand_is_max _ (by decide)⟩

/-- C5: the enumerator on a 7-card array of pairwise distinct cards
produces exactly 21 combinations, each of 5 pairwise distinct cards drawn
from the input, and no two combinations are equal as card sets. -/
theorem get_combinations_spec (cards : List Card) (h7 : cards.length = 7)
    (hnd : cards.Nodup) :
    (get_combinations cards).length = 21 ∧
    (∀ s ∈ get_combinations cards, s.length = 5 ∧ s.Nodup ∧ ∀ c ∈ s, c ∈ cards) ∧
    List.Pairwise (fun s t => ¬ s.Perm t) (get_combinations cards) := by
  have hretr : ∀ t, t < 7 → List.indexOf (cards.getD t default) cards = t := by
    intro t ht
    have ht' : t < cards.length := by omega
    rw [List.getD_eq_getElem _ _ ht']
    exact List.indexOf_getElem hnd t ht'
  rw [get_combinations_eq]
  refine ⟨by rw [List.length_map]; rfl, ?_, ?_⟩
  · intro s hs
    obtain ⟨u, hu, rfl⟩ := List.mem_map.mp hs
    obtain ⟨hlen, hnodup, hbound, -⟩ := combIndices_elem_facts u hu
    refine ⟨by simp [hlen], ?_, ?_⟩
    · refine List.Nodup.map_on ?_ hnodup
      intro x hx y hy hxy
      calc x = List.indexOf (cards.getD x default) cards :=
            (hretr x (hbound x hx)).symm
        _ = List.indexOf (cards.getD y default) cards := by
            exact congrArg (fun c => List.indexOf c cards) hxy
        _ = y := hretr y (hbound y hy)
    · intro c hc
      obtain ⟨t, ht, rfl⟩ := List.mem_map.mp hc
      have ht7 : t < cards.length := by
        have := hbound t ht
        omega
      rw [List.getD_eq_getElem _ _ ht7]
      exact List.getElem_mem ht7
  · rw [List.pairwise_map]
    refine List.Pairwise.imp_of_mem ?_ combIndices_pairwise_ne
    intro u v hu hv hne hperm
    obtain ⟨-, -, hbu, hsu⟩ := combIndices_elem_facts u hu
    obtain ⟨-, -, hbv, hsv⟩ := combIndices_elem_facts v hv
    apply hne
    have hperm2 := hperm.map (fun c => List.indexOf c cards)
    rw [List.map_map, List.map_map] at hperm2
    simp only [Function.comp_def] at hperm2
    rw [List.map_congr_left (fun t ht => hretr t (hbu t ht)),
        List.map_congr_left (fun t ht => hretr t (hbv t ht)),
        List.map_id', List.map_id'] at hperm2
    haveI : IsAntisymm Nat (· < ·) := ⟨fun a b h h2 => absurd h (Nat.lt_asymm h2)⟩
    exact List.eq_of_perm_of_sorted hperm2 hsu hsv

/-- Concrete instantiation of `get_combinations_spec` at the all-spades
test vector of the repository's unit tests. -/
theorem get_combinations_spec_witness :
    (([⟨.Ace, .Spades⟩, ⟨.King, .Spades⟩, ⟨.Queen, .Spades⟩, ⟨.Jack, .Spades⟩,
       ⟨.Ten, .Spades⟩, ⟨.Nine, .Spades⟩, ⟨.Eight, .Spades⟩] : List Card).length = 7 ∧
     ([⟨.Ace, .Spades⟩, ⟨.King, .Spades⟩, ⟨.Queen, .Spades⟩, ⟨.Jack, .Spades⟩,
       ⟨.Ten, .Spades⟩, ⟨.Nine, .Spades⟩, ⟨.Eight, .Spades⟩] : List Card).Nodup) ∧
    ((get_combinations
        [⟨.Ace, .Spades⟩, ⟨.King, .Spades⟩, ⟨.Queen, .Spades⟩, ⟨.Jack, .Spades⟩,
         ⟨.Ten, .Spades⟩, ⟨.Nine, .Spades⟩, ⟨.Eight, .Spades⟩]).length = 21 ∧
     (∀ s ∈ get_combinations
        [⟨.Ace, .Spades⟩, ⟨.King, .Spades⟩, ⟨.Queen, .Spades⟩, ⟨.Jack, .Spades⟩,
         ⟨.Ten, .Spades⟩, ⟨.Nine, .Spades⟩, ⟨.Eight, .Spades⟩],
        s.length = 5 ∧ s.Nodup ∧ ∀ c ∈ s, c ∈
          ([⟨.Ace, .Spades⟩, ⟨.King, .Spades⟩, ⟨.Queen, .Spades⟩, ⟨.Jack, .Spades⟩,
            ⟨.Ten, .Spades⟩, ⟨.Nine, .Spades⟩, ⟨.Eight, .Spades⟩] : List Card)) ∧
     List.Pairwise (fun s t => ¬ s.Perm t)
       (get_combinations
         [⟨.Ace, .Spades⟩, ⟨.King, .Spades⟩, ⟨.Queen, .Spades⟩, ⟨.Jack, .Spades⟩,
          ⟨.Ten, .Spades⟩, ⟨.Nine, .Spades⟩, ⟨.Eight, .Spades⟩])) :=
  ⟨⟨by decide, by decide⟩, get_combinations_spec _ (by decide) (by decide)⟩

/-!  The winner resolver.  -/

theorem req_iff_eq {a b : PokerHandRank} : a.req b = true ↔ a = b := by
  cases a <;> cases b <;> simp_all [PokerHandRank.req, Rank.req_iff, and_assoc]

theorem cmp_lt_of_gt {a b : PokerHandRank}
    (h : PokerHandRank.cmp a b = .lt) : PokerHandRank.cmp b a = .gt := by
  rw [← cmp_swap, h]
  rfl

theorem mem_winner_filter {l : List PokerHandRank} {w : PokerHandRank} {i : Nat} :
    i ∈ l.enum.filterMap (fun p => if p.2.req w then some p.1 else none) ↔
      ∃ hi : i < l.length, (l.get ⟨i, hi⟩).req w := by
  rw [List.mem_filterMap]
  constructor
  · rintro ⟨⟨j, a⟩, hmem, hf⟩
    by_cases hq : a.req w
    · simp only [hq, if_true, Option.some_inj] at hf
      have hget := List.mk_mem_enum_iff_getElem?.mp hmem
      have hj : j < l.length := by
        by_contra hge
        rw [List.getElem?_eq_none (by omega)] at hget
        exact Option.noConfusion hget
      subst hf
      refine ⟨hj, ?_⟩
      rw [List.getElem?_eq_getElem hj, Option.some_inj] at hget
      rw [List.get_eq_getElem, hget]
      exact hq
    · simp [hq] at hf
  · rintro ⟨hi, hq⟩
    refine ⟨(i, l.get ⟨i, hi⟩), ?_, ?_⟩
    · apply List.mk_mem_enum_iff_getElem?.mpr
      rw [List.getElem?_eq_getElem hi, List.get_eq_getElem]
    · rw [if_pos hq]

theorem sorted_winner_filter (w : PokerHandRank) :
    ∀ (l : List PokerHandRank) (n : Nat),
      (∀ i ∈ (List.enumFrom n l).filterMap
          (fun p => if p.2.req w then some p.1 else none), n ≤ i) ∧
      List.Sorted (· < ·) ((List.enumFrom n l).filterMap
        (fun p => if p.2.req w then some p.1 else none))
  | [], n => ⟨by simp, by simp⟩
  | x :: l, n => by
    obtain ⟨hlb, hsort⟩ := sorted_winner_filter w l (n + 1)
    rw [show List.enumFrom n (x :: l) = (n, x) :: List.enumFrom (n + 1) l from rfl,
      List.filterMap_cons]
    by_cases hqx : x.req w
    · simp only [hqx, if_true]
      refine ⟨?_, ?_⟩
      · intro i hi
        rcases List.mem_cons.mp hi with rfl | hi'
        · exact Nat.le_refl i
        · exact Nat.le_trans (Nat.le_succ n) (hlb i hi')
      · rw [List.sorted_cons]
        exact ⟨fun b hb => Nat.lt_of_lt_of_le (Nat.lt_succ_self n) (hlb b hb), hsort⟩
    · simp only [hqx, if_false]
      exact ⟨fun i hi => Nat.le_trans (Nat.le_succ n) (hlb i hi), hsort⟩

theorem determine_winner_core (hands : List (Card × Card)) (community : List Card)
    (hne : hands ≠ []) :
    ∃ idx, determine_winner hands community = some (idx, bestHands hands community) ∧
      idx ≠ [] ∧ List.Sorted (· < ·) idx ∧
      ∀ i, i ∈ idx ↔ ∃ hi : i < (bestHands hands community).length,
        ∀ x ∈ bestHands hands community,
          PokerHandRank.cmp x ((bestHands hands community).get ⟨i, hi⟩) ≠ .gt := by
  have hbne : bestHands hands community ≠ [] := by
    rw [bestHands, ne_eq, List.map_eq_nil_iff]
    exact hne
  obtain ⟨w, hw, hwmem, hall⟩ := iterMax_spec hbne
  set bh := bestHands hands community with hbh
  refine ⟨bh.enum.filterMap (fun p => if p.2.req w then some p.1 else none), ?_, ?_, ?_, ?_⟩
  · rw [determine_winner]
    rw [← hbh, hw]
  · obtain ⟨⟨j, hj⟩, hget⟩ := List.mem_iff_get.mp hwmem
    have : j ∈ bh.enum.filterMap (fun p => if p.2.req w then some p.1 else none) :=
      mem_winner_filter.mpr ⟨hj, by rw [hget]; exact req_iff_eq.mpr rfl⟩
    exact List.ne_nil_of_mem this
  · exact (sorted_winner_filter w bh 0).2
  · intro i
    rw [mem_winner_filter]
    constructor
    · rintro ⟨hi, hq⟩
      refine ⟨hi, ?_⟩
      rw [req_iff_eq.mp hq]
      exact hall
    · rintro ⟨hi, hmax⟩
      refine ⟨hi, req_iff_eq.mpr ?_⟩
      have h1 : PokerHandRank.cmp (bh.get ⟨i, hi⟩) w ≠ .gt :=
        hall _ (bh.get_mem i hi)
      have h2 : PokerHandRank.cmp w (bh.get ⟨i, hi⟩) ≠ .gt := hmax w hwmem
      rcases hc : PokerHandRank.cmp (bh.get ⟨i, hi⟩) w with _ | _ | _
      · exact absurd (cmp_lt_of_gt hc) h2
      · exact cmp_eq_iff_eq.mp hc
      · exact absurd hc h1

/-- C3: for a non-empty list of hole-card pairs, `determine_winner`
returns every player's best hand in input order together with the
ascending, non-empty list of exactly those player indices whose best hand
is maximal — membership is decided by hand equality, not identity. -/
theorem determine_winner_spec (hands : List (Card × Card)) (community : List Card)
    (hne : hands ≠ []) :
    (bestHands hands community).length = hands.length ∧
    ∃ idx, determine_winner hands community = some (idx, bestHands hands community) ∧
      idx ≠ [] ∧ List.Sorted (· < ·) idx ∧
      ∀ i, i ∈ idx ↔ ∃ hi : i < (bestHands hands community).length,
        ∀ x ∈ bestHands hands community,
          PokerHandRank.cmp x ((bestHands hands community).get ⟨i, hi⟩) ≠ .gt :=
  ⟨by rw [bestHands, List.length_map], determine_winner_core hands community hne⟩

/-- Concrete instantiation of `determine_winner_spec`: aces versus kings
on the board Ad Ks 2c 7h 9d. -/
theorem determine_winner_spec_witness :
    (([(⟨.Ace, .Hearts⟩, ⟨.Ace, .Spades⟩), (⟨.King, .Diamonds⟩, ⟨.King, .Hearts⟩)] :
        List (Card × Card)) ≠ []) ∧
    ((bestHands
        [(⟨.Ace, .Hearts⟩, ⟨.Ace, .Spades⟩), (⟨.King, .Diamonds⟩, ⟨.King, .Hearts⟩)]
        [⟨.Ace, .Diamonds⟩, ⟨.King, .Spades⟩, ⟨.Two, .Clubs⟩, ⟨.Seven, .Hearts⟩,
         ⟨.Nine, .Diamonds⟩]).length =
      ([(⟨.Ace, .Hearts⟩, ⟨.Ace, .Spades⟩), (⟨.King, .Diamonds⟩, ⟨.King, .Hearts⟩)] :
        List (Card × Card)).length ∧
     ∃ idx, determine_winner
        [(⟨.Ace, .Hearts⟩, ⟨.Ace, .Spades⟩), (⟨.King, .Diamonds⟩, ⟨.King, .Hearts⟩)]
        [⟨.Ace, .Diamonds⟩, ⟨.King, .Spades⟩, ⟨.Two, .Clubs⟩, ⟨.Seven, .Hearts⟩,
         ⟨.Nine, .Diamonds⟩] = some (idx, bestHands
        [(⟨.Ace, .Hearts⟩, ⟨.Ace, .Spades⟩), (⟨.King, .Diamonds⟩, ⟨.King, .Hearts⟩)]
        [⟨.Ace, .Diamonds⟩, ⟨.King, .Spades⟩, ⟨.Two, .Clubs⟩, ⟨.Seven, .Hearts⟩,
         ⟨.Nine, .Diamonds⟩]) ∧
      idx ≠ [] ∧ List.Sorted (· < ·) idx ∧
      ∀ i, i ∈ idx ↔ ∃ hi : i < (bestHands
        [(⟨.Ace, .Hearts⟩, ⟨.Ace, .Spades⟩), (⟨.King, .Diamonds⟩, ⟨.King, .Hearts⟩)]
        [⟨.Ace, .Diamonds⟩, ⟨.King, .Spades⟩, ⟨.Two, .Clubs⟩, ⟨.Seven, .Hearts⟩,
         ⟨.Nine, .Diamonds⟩]).length,
        ∀ x ∈ bestHands
          [(⟨.Ace, .Hearts⟩, ⟨.Ace, .Spades⟩), (⟨.King, .Diamonds⟩, ⟨.King, .Hearts⟩)]
          [⟨.Ace, .Diamonds⟩, ⟨.King, .Spades⟩, ⟨.Two, .Clubs⟩, ⟨.Seven, .Hearts⟩,
           ⟨.Nine, .Diamonds⟩],
          PokerHandRank.cmp x ((bestHands
            [(⟨.Ace, .Hearts⟩, ⟨.Ace, .Spades⟩), (⟨.King, .Diamonds⟩, ⟨.King, .Hearts⟩)]
            [⟨.Ace, .Diamonds⟩, ⟨.King, .Spades⟩, ⟨.Two, .Clubs⟩, ⟨.Seven, .Hearts⟩,
             ⟨.Nine, .Diamonds⟩]).get ⟨i, hi⟩) ≠ .gt) :=
  ⟨by decide, determine_winner_spec _ _ (by decide)⟩

/-!  The dead-card filter.  -/

theorem deck_without_cards_filter (deck cards : List Card) :
    deck_without_cards deck cards = deck.filter (fun c => decide (c ∉ cards)) := by
  induction cards generalizing deck with
  | nil => simp [deck_without_cards]
  | cons x cs ih =>
    rw [deck_without_cards, List.foldl_cons, ← deck_without_cards, ih,
      List.filter_filter]
    apply List.filter_congr
    intro c _
    simp only [List.mem_cons, not_or, decide_not]
    by_cases h : c = x
    · simp [h]
    · simp [h, bne_iff_ne]

/-- C9: for a duplicate-free deck, `deck_without_cards` keeps exactly the
deck cards outside the dead list, in deck order (a sublist of the deck):
each dead card's sole occurrence is removed, other counts are untouched,
and duplicates in the dead list are no-ops — the result depends only on
the dead list's membership. -/
theorem deck_without_cards_spec (deck cards : List Card) (_hnd : deck.Nodup) :
    deck_without_cards deck cards = deck.filter (fun c => decide (c ∉ cards)) ∧
    (deck_without_cards deck cards).Sublist deck ∧
    (∀ c, c ∈ cards → (deck_without_cards deck cards).count c = 0) ∧
    (∀ c, c ∉ cards → (deck_without_cards deck cards).count c = deck.count c) ∧
    (∀ cards2, (∀ c, c ∈ cards ↔ c ∈ cards2) →
      deck_without_cards deck cards = deck_without_cards deck cards2) := by
  refine ⟨deck_without_cards_filter deck cards, ?_, ?_, ?_, ?_⟩
  · rw [deck_without_cards_filter]
    exact List.filter_sublist deck
  · intro c hc
    rw [deck_without_cards_filter, List.count_eq_zero]
    intro hmem
    have := (List.mem_filter.mp hmem).2
    simp at this
    exact this hc
  · intro c hc
    rw [deck_without_cards_filter]
    exact List.count_filter (by simpa using hc)
  · intro cards2 hiff
    rw [deck_without_cards_filter, deck_without_cards_filter]
    apply List.filter_congr
    intro c _
    simp [hiff c]

/-- Concrete instantiation of `deck_without_cards_spec`: remove the two
aces (one listed twice) from a three-card deck. -/
theorem deck_without_cards_spec_witness :
    (([⟨.Ace, .Spades⟩, ⟨.King, .Hearts⟩, ⟨.Ace, .Hearts⟩] : List Card).Nodup) ∧
    (deck_without_cards [⟨.Ace, .Spades⟩, ⟨.King, .Hearts⟩, ⟨.Ace, .Hearts⟩]
        [⟨.Ace, .Spades⟩, ⟨.Ace, .Hearts⟩, ⟨.Ace, .Spades⟩] =
      List.filter (fun c => decide (c ∉
        ([⟨.Ace, .Spades⟩, ⟨.Ace, .Hearts⟩, ⟨.Ace, .Spades⟩] : List Card)))
        [⟨.Ace, .Spades⟩, ⟨.King, .Hearts⟩, ⟨.Ace, .Hearts⟩] ∧
     (deck_without_cards [⟨.Ace, .Spades⟩, ⟨.King, .Hearts⟩, ⟨.Ace, .Hearts⟩]
        [⟨.Ace, .Spades⟩, ⟨.Ace, .Hearts⟩, ⟨.Ace, .Spades⟩]).Sublist
        [⟨.Ace, .Spades⟩, ⟨.King, .Hearts⟩, ⟨.Ace, .Hearts⟩] ∧
     (∀ c, c ∈ ([⟨.Ace, .Spades⟩, ⟨.Ace, .Hearts⟩, ⟨.Ace, .Spades⟩] : List Card) →
       (deck_without_cards [⟨.Ace, .Spades⟩, ⟨.King, .Hearts⟩, ⟨.Ace, .Hearts⟩]
         [⟨.Ace, .Spades⟩, ⟨.Ace, .Hearts⟩, ⟨.Ace, .Spades⟩]).count c = 0) ∧
     (∀ c, c ∉ ([⟨.Ace, .Spades⟩, ⟨.Ace, .Hearts⟩, ⟨.Ace, .Spades⟩] : List Card) →
       (deck_without_cards [⟨.Ace, .Spades⟩, ⟨.King, .Hearts⟩, ⟨.Ace, .Hearts⟩]
         [⟨.Ace, .Spades⟩, ⟨.Ace, .Hearts⟩, ⟨.Ace, .Spades⟩]).count c =
       List.count c [⟨.Ace, .Spades⟩, ⟨.King, .Hearts⟩, ⟨.Ace, .Hearts⟩]) ∧
     (∀ cards2, (∀ c, c ∈ ([⟨.Ace, .Spades⟩, ⟨.Ace, .Hearts⟩, ⟨.Ace, .Spades⟩] :
         List Card) ↔ c ∈ cards2) →
       deck_without_cards [⟨.Ace, .Spades⟩, ⟨.King, .Hearts⟩, ⟨.Ace, .Hearts⟩]
         [⟨.Ace, .Spades⟩, ⟨.Ace, .Hearts⟩, ⟨.Ace, .Spades⟩] =
       deck_without_cards [⟨.Ace, .Spades⟩, ⟨.King, .Hearts⟩, ⟨.Ace, .Hearts⟩]
         cards2)) :=
  ⟨by decide, deck_without_cards_spec _ _ (by decide)⟩

/-!  Permutation invariance of the classifier.  -/

theorem straightChain_eq_rchain : ∀ cs : List Card,
    straightChain cs = rchain (cs.map (fun c => c.rank))
  | [] => rfl
  | [_] => rfl
  | c1 :: c2 :: rest => by
    have ih := straightChain_eq_rchain (c2 :: rest)
    rw [List.map_cons] at ih ⊢
    rw [List.map_cons, straightChain, rchain, ih]

theorem getD_map_rank : ∀ (cs : List Card) (i : Nat),
    (cs.map (fun c => c.rank)).getD i Rank.Two = (cs.getD i default).rank
  | [], _ => rfl
  | _ :: _, 0 => rfl
  | _ :: cs, i + 1 => getD_map_rank cs i

theorem handOfSorted_eq_handOfRanks (cs : List Card) :
    handOfSorted cs = handOfRanks (cs.map (fun c => c.rank)) (suitsAllEqual cs) := by
  simp only [handOfSorted, handOfRanks, straightChain_eq_rchain, getD_map_rank]

theorem suitsAllEqual_iff (cs : List Card) :
    suitsAllEqual cs = true ↔ ∀ c ∈ cs, ∀ d ∈ cs, c.suit = d.suit := by
  rw [suitsAllEqual, List.all_eq_true]
  constructor
  · intro h c hc d hd
    have h1 := h c hc
    have h2 := h d hd
    simp only [beq_iff_eq] at h1 h2
    rw [h1, h2]
  · intro h c hc
    simp only [beq_iff_eq]
    cases cs with
    | nil => cases hc
    | cons x cs => exact h c hc x (List.mem_cons_self x cs)

theorem bool_eq_of_iff {a b : Bool} (h : a = true ↔ b = true) : a = b := by
  cases a <;> cases b <;> simp_all

theorem suitsAllEqual_perm {l l2 : List Card} (h : l.Perm l2) :
    suitsAllEqual l = suitsAllEqual l2 := by
  apply bool_eq_of_iff
  rw [suitsAllEqual_iff, suitsAllEqual_iff]
  constructor
  · intro hp c hc d hd
    exact hp c (h.mem_iff.mpr hc) d (h.mem_iff.mpr hd)
  · intro hp c hc d hd
    exact hp c (h.mem_iff.mp hc) d (h.mem_iff.mp hd)

theorem Rank.value_injective : Function.Injective Rank.value :=
  fun _ _ h => Rank.value_inj h

theorem sortCardsDesc_map_rank_perm {l l2 : List Card} (h : l.Perm l2) :
    (sortCardsDesc l).map (fun c => c.rank) =
      (sortCardsDesc l2).map (fun c => c.rank) := by
  have hv : (List.insertionSort rankLE l).map (fun c => c.rank.value) =
      (List.insertionSort rankLE l2).map (fun c => c.rank.value) := by
    apply List.eq_of_perm_of_sorted (r := (· ≤ ·))
    · exact (((List.perm_insertionSort rankLE l).trans h).trans
        (List.perm_insertionSort rankLE l2).symm).map _
    · exact (List.sorted_insertionSort rankLE l).map _ (fun a b hab => hab)
    · exact (List.sorted_insertionSort rankLE l2).map _ (fun a b hab => hab)
  have key : (List.insertionSort rankLE l).map (fun c => c.rank) =
      (List.insertionSort rankLE l2).map (fun c => c.rank) := by
    apply List.map_injective_iff.mpr Rank.value_injective
    rw [List.map_map, List.map_map]
    exact hv
  rw [sortCardsDesc, sortCardsDesc, List.map_reverse, List.map_reverse, key]

theorem sortCardsDesc_perm (l : List Card) : (sortCardsDesc l).Perm l :=
  (List.reverse_perm _).trans (List.perm_insertionSort rankLE l)

/-- C8: the classification of five cards is invariant under permutation of
the input array: it depends only on the card set. -/
theorem cards_to_hand_perm_invariant {l l2 : List Card} (h : l.Perm l2) :
    cards_to_hand l = cards_to_hand l2 := by
  rw [cards_to_hand, cards_to_hand, handOfSorted_eq_handOfRanks,
    handOfSorted_eq_handOfRanks, sortCardsDesc_map_rank_perm h,
    suitsAllEqual_perm ((sortCardsDesc_perm l).trans
      (h.trans (sortCardsDesc_perm l2).symm))]

/-- Concrete instantiation of `cards_to_hand_perm_invariant` at a rotation
of the wheel cards. -/
theorem cards_to_hand_perm_invariant_witness :
    wheelCards.Perm
      [⟨.Five, .Hearts⟩, ⟨.Four, .Clubs⟩, ⟨.Three, .Diamonds⟩, ⟨.Two, .Spades⟩,
       ⟨.Ace, .Hearts⟩] ∧
    cards_to_hand wheelCards = cards_to_hand
      [⟨.Five, .Hearts⟩, ⟨.Four, .Clubs⟩, ⟨.Three, .Diamonds⟩, ⟨.Two, .Spades⟩,
       ⟨.Ace, .Hearts⟩] :=
  ⟨by decide, cards_to_hand_perm_invariant (by decide)⟩

/-!  The equity simulator's accumulation.  -/

theorem completeBoard_fuel : ∀ (n : Nat) (deck community : List Card),
    5 - community.length = n → community.length ≤ 5 →
    5 ≤ community.length + deck.length →
    ∃ c5, completeBoard deck community = some c5 ∧ c5.length = 5 := by
  intro n
  induction n with
  | zero =>
    intro deck community hn h5 _
    have hlen : community.length = 5 := by omega
    rw [completeBoard, dif_neg (by omega)]
    exact ⟨community, rfl, hlen⟩
  | succ n ih =>
    intro deck community hn h5 hd
    have hlt : community.length < 5 := by omega
    have hdne : deck ≠ [] := by
      intro hnil
      subst hnil
      simp at hd
      omega
    rw [completeBoard, dif_pos hlt, List.getLast?_eq_getLast deck hdne]
    apply ih
    · simp
      omega
    · simp
      omega
    · simp [List.length_dropLast]
      omega

theorem completeBoard_total (deck community : List Card)
    (h5 : community.length ≤ 5) (hd : 5 ≤ community.length + deck.length) :
    ∃ c5, completeBoard deck community = some c5 ∧ c5.length = 5 :=
  completeBoard_fuel _ deck community rfl h5 hd

theorem getD_set_self_rat (l : List ℚ) {i : Nat} (hi : i < l.length) (x : ℚ) :
    (l.set i x).getD i 0 = x := by
  rw [List.getD_eq_getElem?_getD, List.getElem?_set_self hi]
  rfl

theorem getD_set_ne_rat (l : List ℚ) {i j : Nat} (hij : i ≠ j) (x : ℚ) :
    (l.set i x).getD j 0 = l.getD j 0 := by
  rw [List.getD_eq_getElem?_getD, List.getElem?_set_ne hij, ← List.getD_eq_getElem?_getD]

theorem sum_set_add : ∀ (l : List ℚ) (i : Nat), i < l.length → ∀ x : ℚ,
    (l.set i (l.getD i 0 + x)).sum = l.sum + x
  | [], i, hi, x => by simp at hi
  | a :: l, 0, _, x => by
    simp only [List.getD_cons_zero, List.set_cons_zero, List.sum_cons]
    ring
  | a :: l, i + 1, hi, x => by
    simp only [List.getD_cons_succ, List.set_cons_succ, List.sum_cons]
    rw [sum_set_add l i (by simpa using hi) x]
    ring

theorem creditFold_length (q : ℚ) :
    ∀ (idx : List Nat) (wins : List ℚ), (creditFold q idx wins).length = wins.length
  | [], _ => rfl
  | i :: idx, wins => by
    rw [creditFold, List.foldl_cons, ← creditFold, creditFold_length q idx,
      List.length_set]

theorem creditFold_getD (q : ℚ) :
    ∀ (idx : List Nat) (wins : List ℚ), idx.Nodup →
      (∀ i ∈ idx, i < wins.length) → ∀ j,
      (creditFold q idx wins).getD j 0 =
        wins.getD j 0 + (if j ∈ idx then q else 0)
  | [], wins, _, _, j => by simp [creditFold]
  | i :: idx, wins, hnd, hb, j => by
    rw [creditFold, List.foldl_cons, ← creditFold]
    obtain ⟨hni, hnd2⟩ := List.nodup_cons.mp hnd
    rw [creditFold_getD q idx (wins.set i (wins.getD i 0 + q)) hnd2
      (fun t ht => by rw [List.length_set]; exact hb t (List.mem_cons_of_mem _ ht)) j]
    by_cases hji : j = i
    · subst hji
      rw [getD_set_self_rat wins (hb j (List.mem_cons_self j idx)) _]
      simp [hni, List.mem_cons]
    · rw [getD_set_ne_rat wins (fun h => hji h.symm) _]
      simp only [List.mem_cons]
      have : (j = i ∨ j ∈ idx) ↔ j ∈ idx := by
        constructor
        · rintro (rfl | h)
          · exact absurd rfl hji
          · exact h
        · exact Or.inr
      rw [if_congr this rfl rfl]

theorem creditFold_sum (q : ℚ) :
    ∀ (idx : List Nat) (wins : List ℚ), (∀ i ∈ idx, i < wins.length) →
      (creditFold q idx wins).sum = wins.sum + idx.length * q
  | [], wins, _ => by simp [creditFold]
  | i :: idx, wins, hb => by
    rw [creditFold, List.foldl_cons, ← creditFold]
    rw [creditFold_sum q idx _
      (fun t ht => by rw [List.length_set]; exact hb t (List.mem_cons_of_mem _ ht))]
    rw [sum_set_add wins i (hb i (List.mem_cons_self i idx)) q]
    rw [List.length_cons]
    push_cast
    ring

theorem getD_map_div : ∀ (l : List ℚ) (d : ℚ) (j : Nat),
    (l.map (fun c => c / d)).getD j 0 = l.getD j 0 / d
  | [], d, j => by simp
  | _ :: _, _, 0 => rfl
  | _ :: l, d, j + 1 => getD_map_div l d j

theorem runTrial_step (oracle : Nat → List Card → List Card) (deck : List Card)
    (hands : List (Card × Card)) (community : List Card)
    (hh : hands ≠ []) (hc : community.length ≤ 5)
    (ho : ∀ t, 5 ≤ community.length + (oracle t deck).length)
    (t : Nat) (wins : List ℚ) (hlen : wins.length = hands.length) :
    ∃ c5 idx, completeBoard (oracle t deck) community = some c5 ∧ c5.length = 5 ∧
      determine_winner hands c5 = some (idx, bestHands hands c5) ∧
      runTrial oracle deck hands community wins t =
        some (creditFold (1 / (idx.length : ℚ)) idx wins) ∧
      idx ≠ [] ∧ idx.Nodup ∧ ∀ i ∈ idx, i < wins.length := by
  obtain ⟨c5, hc5, hc5len⟩ := completeBoard_total (oracle t deck) community hc (ho t)
  obtain ⟨idx, hdw, hidxne, hsorted, hiff⟩ := determine_winner_core hands c5 hh
  refine ⟨c5, idx, hc5, hc5len, hdw, ?_, hidxne, ?_, ?_⟩
  · rw [runTrial, hc5]
    show (if c5.length = 5 then
        match determine_winner hands c5 with
        | none => none
        | some (idx, _) => some (creditFold (1 / (idx.length : ℚ)) idx wins)
      else none) = _
    rw [if_pos hc5len, hdw]
  · haveI : IsIrrefl Nat (· < ·) := ⟨Nat.lt_irrefl⟩
    exact hsorted.nodup
  · intro i hi
    obtain ⟨hilt, -⟩ := (hiff i).mp hi
    rw [hlen]
    rw [bestHands, List.length_map] at hilt
    exact hilt

theorem getD_replicate_zero : ∀ (n j : Nat), (List.replicate n (0 : ℚ)).getD j 0 = 0
  | 0, _ => rfl
  | _ + 1, 0 => rfl
  | n + 1, j + 1 => getD_replicate_zero n j

theorem runOutAcc_succ (oracle : Nat → List Card → List Card) (deck : List Card)
    (hands : List (Card × Card)) (community : List Card) (t : Nat) :
    runOutAcc oracle deck hands community (t + 1) =
      (runOutAcc oracle deck hands community t).bind
        (fun wins => runTrial oracle deck hands community wins t) := by
  rw [runOutAcc, runOutAcc, List.range_succ, List.foldlM_append]
  simp

theorem runOutAcc_invariant (oracle : Nat → List Card → List Card) (deck : List Card)
    (hands : List (Card × Card)) (community : List Card)
    (hh : hands ≠ []) (hc : community.length ≤ 5)
    (ho : ∀ t, 5 ≤ community.length + (oracle t deck).length) :
    ∀ t, ∃ acc, runOutAcc oracle deck hands community t = some acc ∧
      acc.length = hands.length ∧ acc.sum = (t : ℚ) ∧
      (∀ j, 0 ≤ acc.getD j 0) ∧ (∀ j, acc.getD j 0 ≤ (t : ℚ))
  | 0 => by
    refine ⟨List.replicate hands.length 0, rfl, by simp, by simp, ?_, ?_⟩
    · intro j
      rw [getD_replicate_zero]
    · intro j
      rw [getD_replicate_zero]
      simp
  | t + 1 => by
    obtain ⟨acc, hacc, hlen, hsum, hpos, hub⟩ :=
      runOutAcc_invariant oracle deck hands community hh hc ho t
    obtain ⟨c5, idx, hc5, hc5l, hdw, htrial, hne, hnodup, hbound⟩ :=
      runTrial_step oracle deck hands community hh hc ho t acc hlen
    have hk1 : 1 ≤ idx.length := List.length_pos.mpr hne
    have hkQ : (0 : ℚ) < (idx.length : ℚ) := by exact_mod_cast hk1
    have hq0 : 0 ≤ 1 / (idx.length : ℚ) := by positivity
    have hq1 : 1 / (idx.length : ℚ) ≤ 1 := by
      rw [div_le_one hkQ]
      exact_mod_cast hk1
    refine ⟨creditFold (1 / (idx.length : ℚ)) idx acc, ?_, ?_, ?_, ?_, ?_⟩
    · rw [runOutAcc_succ, hacc]
      exact htrial
    · rw [creditFold_length, hlen]
    · rw [creditFold_sum _ idx acc hbound, hsum, mul_one_div,
        div_self (ne_of_gt hkQ)]
      push_cast
      ring
    · intro j
      rw [creditFold_getD _ idx acc hnodup hbound j]
      by_cases hj : j ∈ idx
      · rw [if_pos hj]
        exact add_nonneg (hpos j) hq0
      · rw [if_neg hj, add_zero]
        exact hpos j
    · intro j
      rw [creditFold_getD _ idx acc hnodup hbound j]
      push_cast
      by_cases hj : j ∈ idx
      · rw [if_pos hj]
        exact add_le_add (hub j) hq1
      · rw [if_neg hj, add_zero]
        calc acc.getD j 0 ≤ (t : ℚ) := hub j
          _ ≤ (t : ℚ) + 1 := by linarith

/-- C4: with a non-empty player list, at least one trial, a partial board
of at most 5 cards and a shuffle oracle always leaving enough cards to
complete the board, `run_out` succeeds; in every trial exactly
`1/(number of winning indices)` is added to each winning player's
accumulator and nothing to any other player (so one unit of credit per
trial, never vanishing, never double-counted, and the accumulators sum to
the trial count); the reported fractions are the accumulated totals
divided by the trial count and lie in `[0, 1]`. -/
theorem run_out_spec (oracle : Nat → List Card → List Card) (deck : List Card)
    (hands : List (Card × Card)) (community : List Card) (T : Nat)
    (hh : hands ≠ []) (hT : 1 ≤ T) (hc : community.length ≤ 5)
    (ho : ∀ t, 5 ≤ community.length + (oracle t deck).length) :
    ∃ res acc, run_out oracle deck hands community T = some res ∧
      runOutAcc oracle deck hands community T = some acc ∧
      res = acc.map (fun c => c / (T : ℚ)) ∧
      res.length = hands.length ∧ acc.sum = (T : ℚ) ∧
      (∀ q ∈ res, 0 ≤ q ∧ q ≤ 1) ∧
      (∀ j, res.getD j 0 = acc.getD j 0 / (T : ℚ)) ∧
      ∀ t, t < T → ∃ accT idx,
        runOutAcc oracle deck hands community t = some accT ∧
        runOutAcc oracle deck hands community (t + 1) =
          some (creditFold (1 / (idx.length : ℚ)) idx accT) ∧
        idx ≠ [] ∧ idx.Nodup ∧ (∀ i ∈ idx, i < hands.length) ∧
        (∀ j, (creditFold (1 / (idx.length : ℚ)) idx accT).getD j 0 =
          accT.getD j 0 + (if j ∈ idx then 1 / (idx.length : ℚ) else 0)) ∧
        (creditFold (1 / (idx.length : ℚ)) idx accT).sum = accT.sum + 1 := by
  have hT0 : (0 : ℚ) < (T : ℚ) := by exact_mod_cast hT
  obtain ⟨acc, hacc, hlen, hsum, hpos, hub⟩ :=
    runOutAcc_invariant oracle deck hands community hh hc ho T
  refine ⟨acc.map (fun c => c / (T : ℚ)), acc, ?_, hacc, rfl, ?_, hsum, ?_, ?_, ?_⟩
  · rw [run_out, hacc]
  · rw [List.length_map, hlen]
  · intro q hq
    obtain ⟨a, ha, rfl⟩ := List.mem_map.mp hq
    obtain ⟨⟨j, hj⟩, hget⟩ := List.mem_iff_get.mp ha
    have hgd : acc.getD j 0 = a := by
      rw [List.getD_eq_getElem _ _ hj]
      exact hget
    constructor
    · exact div_nonneg (hgd ▸ hpos j) (le_of_lt hT0)
    · rw [div_le_one hT0]
      exact hgd ▸ hub j
  · intro j
    exact getD_map_div acc (T : ℚ) j
  · intro t ht
    obtain ⟨accT, haccT, hlenT, -, -, -⟩ :=
      runOutAcc_invariant oracle deck hands community hh hc ho t
    obtain ⟨c5, idx, hc5, hc5l, hdw, htrial, hne, hnodup, hboundW⟩ :=
      runTrial_step oracle deck hands community hh hc ho t accT hlenT
    have hk1 : 1 ≤ idx.length := List.length_pos.mpr hne
    have hkQ : (0 : ℚ) < (idx.length : ℚ) := by exact_mod_cast hk1
    refine ⟨accT, idx, haccT, ?_, hne, hnodup, ?_, ?_, ?_⟩
    · rw [runOutAcc_succ, haccT]
      exact htrial
    · intro i hi
      rw [← hlenT]
      exact hboundW i hi
    · exact creditFold_getD _ idx accT hnodup hboundW
    · rw [creditFold_sum _ idx accT hboundW, mul_one_div,
        div_self (ne_of_gt hkQ)]

/-- Concrete instantiation of `run_out_spec`: one deterministic trial of
aces versus kings on a full board. -/
theorem run_out_spec_witness :
    (wHands ≠ [] ∧ 1 ≤ 1 ∧ wBoard.length ≤ 5 ∧
      ∀ t : Nat, 5 ≤ wBoard.length + (wOracle t []).length) ∧
    (∃ res acc, run_out wOracle [] wHands wBoard 1 = some res ∧
      runOutAcc wOracle [] wHands wBoard 1 = some acc ∧
      res = acc.map (fun c => c / ((1 : Nat) : ℚ)) ∧
      res.length = wHands.length ∧ acc.sum = ((1 : Nat) : ℚ) ∧
      (∀ q ∈ res, 0 ≤ q ∧ q ≤ 1) ∧
      (∀ j, res.getD j 0 = acc.getD j 0 / ((1 : Nat) : ℚ)) ∧
      ∀ t, t < 1 → ∃ accT idx,
        runOutAcc wOracle [] wHands wBoard t = some accT ∧
        runOutAcc wOracle [] wHands wBoard (t + 1) =
          some (creditFold (1 / (idx.length : ℚ)) idx accT) ∧
        idx ≠ [] ∧ idx.Nodup ∧ (∀ i ∈ idx, i < wHands.length) ∧
        (∀ j, (creditFold (1 / (idx.length : ℚ)) idx accT).getD j 0 =
          accT.getD j 0 + (if j ∈ idx then 1 / (idx.length : ℚ) else 0)) ∧
        (creditFold (1 / (idx.length : ℚ)) idx accT).sum = accT.sum + 1) :=
  ⟨⟨by decide, by decide, by decide, fun _ => Nat.le.refl⟩,
   run_out_spec wOracle [] wHands wBoard 1 (by decide) (by decide) (by decide)
     (fun _ => Nat.le.refl)⟩

end EquityCli
